import Mathlib

/-!
Verification development for the emotion_labeling_json repository.

The repository aligns three annotators' JSON emotion labels and computes
inter-rater reliability statistics.  The definitions below are shallow
embeddings of the relevant Python functions, translated line by line from
`src/data_processing/`.  Numeric JSON values are modelled as rationals,
numpy floating behaviour (nan and infinities arising from division) by the
explicit `NpVal` type, and a raised Python exception by `Except.error`.
-/

/-- A numeric JSON field value: JSON `null` or a number (modelled as `ℚ`). -/
inductive JVal where
  | jnull : JVal
  | jnum : ℚ → JVal
deriving DecidableEq, Repr

/-- A JSON record restricted to its numeric fields: an association list from
field names to `JVal`.  Python `dict` lookup takes the first matching key. -/
def JRecord := List (String × JVal)

/-- Python `record.get(key, default)`: the stored value (possibly `null`)
when the key is present, the default otherwise. -/
def dictGetD (r : JRecord) (k : String) (d : JVal) : JVal :=
  match r.find? (fun p => p.1 = k) with
  | some p => p.2
  | none => d

/-- Key lookup with no default, as Python `record.get(key)` except that a
present-but-null value is still distinguished from an absent key. -/
def dictFind (r : JRecord) (k : String) : Option JVal :=
  match r.find? (fun p => p.1 = k) with
  | some p => some p.2
  | none => none

/-- `caculate_cronbach_alpha.extract_va_values` (and its copies in
`calculate_kendall_w`, `extract_inconsistent_data`, `count_consistent_data`):
the cell placed in the rating matrix for one annotator's record is
`item.get(field, 0)`. -/
def va_cell (r : JRecord) (field : String) : JVal :=
  dictGetD r field (JVal.jnum 0)

/-- `calculate_emotion_kappa.extract_emotion_labels`, null-handling branch:
a `null` (or absent) `discrete_emotion` becomes `"neutral"` when the
record's `emotion_type` equals `"neutral"` and `"undefined"` otherwise;
a present label is kept. -/
def extract_label (discrete_emotion : Option String) (emotion_type : Option String) : String :=
  match discrete_emotion with
  | some label => label
  | none => if emotion_type = some "neutral" then "neutral" else "undefined"

/-- `plot_discrete_emotion_pie.load_discrete_emotions`, the per-item label
extraction: identical null-handling rule as `extract_label`. -/
def pie_label (discrete_emotion : Option String) (emotion_type : Option String) : String :=
  match discrete_emotion with
  | some emotion => emotion
  | none => if emotion_type = some "neutral" then "neutral" else "undefined"

/-- Python whitespace as stripped by `str.strip()` (ASCII range). -/
def pyIsSpace (c : Char) : Bool :=
  c = ' ' || c = '\t' || c = '\n' || c = '\r' || c = '\x0b' || c = '\x0c'

/-- Python `str.strip()`: remove leading and trailing whitespace.  Text is
modelled as a list of characters so that the embedding is executable. -/
def pyStrip (s : List Char) : List Char :=
  ((s.dropWhile pyIsSpace).reverse.dropWhile pyIsSpace).reverse

/-- ASCII lowering of one character, as Python `str.lower()` acts on the
ASCII letters occurring in the labels. -/
def asciiLower (c : Char) : Char :=
  if 'A' ≤ c ∧ c ≤ 'Z' then Char.ofNat (c.toNat + 32) else c

/-- Python `str.lower()` on a character-list string. -/
def pyLower (s : List Char) : List Char := s.map asciiLower

/-- `discrete_emotion_distribution.analyze_discrete_emotion_data`,
lines 66-77: a `null` value becomes the sentinel `"None"`; a string value is
stripped, and an empty string or one whose lowering is `"null"` also becomes
the sentinel; any other string is kept in stripped form. -/
def normalize_discrete_emotion (d : Option (List Char)) : List Char :=
  match d with
  | none => "None".toList
  | some s =>
    let t := pyStrip s
    if t = [] ∨ pyLower t = "null".toList then "None".toList else t

/-- `calculate_fleiss_kappa.main`, lines 39-48: `item.get("v_value")` gives
Python `None` both for an absent key and for a JSON `null`; no numeric
sentinel is substituted. -/
def fleiss_get (r : JRecord) (k : String) : Option ℚ :=
  match dictGetD r k JVal.jnull with
  | JVal.jnull => none
  | JVal.jnum q => some q

/-- One annotator's dataset for one file, after the preprocessing loop of
`extract_va_values`: an association from `audio_file` to the full record. -/
def AnnDataset := List (String × JRecord)

/-- `processed_data[annotator][audio_file]` lookup. -/
def recordOf (d : AnnDataset) (audio : String) : JRecord :=
  match d.find? (fun p => p.1 = audio) with
  | some p => p.2
  | none => []

/-- The row-building step of `extract_va_values` (lines 76-84): one matrix
row per visited sample identifier, one cell per annotator, each cell being
`item.get("v_value", 0)`.  The code obtains `order` by iterating the Python
set `common_audio_files`; the enumeration is passed explicitly here because
Python fixes no particular order for it. -/
def build_matrix (order : List String) (ds : List AnnDataset) : List (List JVal) :=
  order.map (fun audio => ds.map (fun d => va_cell (recordOf d audio) "v_value"))

/-- The common-sample loop of `extract_va_values` (lines 68-73), also in
`find_inconsistent_data` and `count_consistent_data`: starting from the
empty set, each annotator's key set either replaces the accumulator when the
accumulator is empty or is intersected into it. -/
def common_samples_fold (keysets : List (Finset String)) : Finset String :=
  keysets.foldl (fun acc ks => if acc = ∅ then ks else acc ∩ ks) ∅

/-- Follows the spec's words: `common_samples` is the intersection of the
sample identifiers across all annotators' datasets. -/
def samples_intersection (keysets : List (Finset String)) : Finset String :=
  match keysets with
  | [] => ∅
  | k :: rest => rest.foldl (fun acc ks => acc ∩ ks) k

/-- `extract_inconsistent_data.find_inconsistent_data` (lines 98-106),
valence criterion: the range of the three annotators' values,
`max(v_values) - min(v_values)`, is strictly positive. -/
def find_inconsistent_v (v1 v2 v3 : ℚ) : Prop :=
  max (max v1 v2) v3 - min (min v1 v2) v3 > 0

/-- `count_consistent_data.count_consistent_data` (lines 96-106), valence
criterion: `len(set(v_values)) == 1`, the three values form one distinct
element. -/
def count_consistent_v (v1 v2 v3 : ℚ) : Prop :=
  ({v1, v2, v3} : Finset ℚ).card = 1

/-- `calculate_emotion_kappa.calculate_agreement_per_category`, the
occurrence counter: each rater's label of each sample counts once toward its
category. -/
def category_counts (samples : List (List String)) (c : String) : ℕ :=
  (samples.map (fun s => s.count c)).sum

/-- `calculate_emotion_kappa.calculate_agreement_per_category`, the
agreement accumulator: inside the loop over a sample's individual labels,
whenever all raters chose the label, `len(annotations)` is added once per
occurrence — hence `count * length` for a unanimous sample. -/
def category_agreement_raw (samples : List (List String)) (c : String) : ℕ :=
  (samples.map (fun s => if s.count c = s.length then s.count c * s.length else 0)).sum

/-- `calculate_emotion_kappa.calculate_agreement_per_category` (lines
86-108): the reported percentage per category. -/
def calculate_agreement_per_category (samples : List (List String)) (c : String) : ℚ :=
  if 0 < category_counts samples c then
    (category_agreement_raw samples c : ℚ) / (category_counts samples c) * 100
  else 0

/-- Follows the spec's words: the occurrences of a category that lie in
samples where all raters assigned exactly that value. -/
def spec_unanimous_occurrences (samples : List (List String)) (c : String) : ℕ :=
  (samples.map (fun s => if s.count c = s.length then s.count c else 0)).sum

/-- Follows the spec's words: the percentage form of the per-category
agreement fraction. -/
def spec_agreement_per_category (samples : List (List String)) (c : String) : ℚ :=
  if 0 < category_counts samples c then
    (spec_unanimous_occurrences samples c : ℚ) / (category_counts samples c) * 100
  else 0

/-- A numpy float64 scalar as produced by the statistics code: a finite
(rational) value, nan, or a signed infinity.  numpy scalar divisions by zero
warn and produce nan or an infinity instead of raising. -/
inductive NpVal where
  | num : ℚ → NpVal
  | nan : NpVal
  | pinf : NpVal
  | ninf : NpVal
deriving DecidableEq, Repr

namespace NpVal

/-- IEEE-754 negation. -/
def neg : NpVal → NpVal
  | num a => num (-a)
  | nan => nan
  | pinf => ninf
  | ninf => pinf

/-- IEEE-754 addition on numpy float64 scalars. -/
def add : NpVal → NpVal → NpVal
  | nan, _ => nan
  | _, nan => nan
  | num a, num b => num (a + b)
  | pinf, ninf => nan
  | ninf, pinf => nan
  | pinf, _ => pinf
  | _, pinf => pinf
  | ninf, _ => ninf
  | _, ninf => ninf

/-- IEEE-754 subtraction. -/
def sub (x y : NpVal) : NpVal := add x (neg y)

/-- IEEE-754 multiplication. -/
def mul : NpVal → NpVal → NpVal
  | nan, _ => nan
  | _, nan => nan
  | num a, num b => num (a * b)
  | pinf, pinf => pinf
  | pinf, ninf => ninf
  | ninf, pinf => ninf
  | ninf, ninf => pinf
  | pinf, num b => if b = 0 then nan else if 0 < b then pinf else ninf
  | num a, pinf => if a = 0 then nan else if 0 < a then pinf else ninf
  | ninf, num b => if b = 0 then nan else if 0 < b then ninf else pinf
  | num a, ninf => if a = 0 then nan else if 0 < a then ninf else pinf

/-- IEEE-754 division with numpy's warn-and-continue semantics: 0/0 is nan,
x/0 a signed infinity, x divided by an infinity is 0.  The zero divisor acts
as +0 because the embedded rationals carry no signed zero. -/
def div : NpVal → NpVal → NpVal
  | nan, _ => nan
  | _, nan => nan
  | num a, num b =>
    if b ≠ 0 then num (a / b)
    else if a = 0 then nan
    else if 0 < a then pinf else ninf
  | num _, pinf => num 0
  | num _, ninf => num 0
  | pinf, num b => if 0 ≤ b then pinf else ninf
  | ninf, num b => if 0 ≤ b then ninf else pinf
  | pinf, pinf => nan
  | pinf, ninf => nan
  | ninf, pinf => nan
  | ninf, ninf => nan

end NpVal

/-- `np.sum` over a vector of numpy scalars, folded from 0. -/
def npSum (l : List NpVal) : NpVal := l.foldl NpVal.add (NpVal.num 0)

/-- `np.var(xs, ddof=1)` on a vector of finite values: nan on an empty
vector (mean of an empty slice), otherwise the sum of squared deviations
from the mean divided by `len - 1` — numpy's nan for a one-element vector
(0/0). -/
def npVar (xs : List ℚ) : NpVal :=
  if xs.length = 0 then NpVal.nan
  else
    NpVal.div (NpVal.num ((xs.map (fun x => (x - xs.sum / xs.length) ^ 2)).sum))
      (NpVal.num ((xs.length : ℚ) - 1))

/-- Column `j` of a row-major matrix, as numpy axis-0 operations see it. -/
def colList (M : List (List ℚ)) (j : ℕ) : List ℚ :=
  M.map (fun r => r.getD j 0)

/-- `caculate_cronbach_alpha.calculate_cronbachs_alpha_manual` (lines
134-156): per-column (rater) sample variances, the variance of the
per-sample row sums, and `alpha = (k/(k-1)) * (1 - sum_item_var/total_var)`.
The leading factor is Python scalar arithmetic on the column count, so a
single-column matrix raises `ZeroDivisionError`, modelled as
`Except.error`; everything else is numpy scalar arithmetic, which never
raises. -/
def calculate_cronbachs_alpha_manual (M : List (List ℚ)) : Except Unit NpVal :=
  let nItems := (M.headD []).length
  let itemVars := (List.range nItems).map (fun j => npVar (colList M j))
  let totalItemVar := npSum itemVars
  let totalVar := npVar (M.map List.sum)
  if nItems = 1 then Except.error ()
  else
    Except.ok (NpVal.mul (NpVal.num ((nItems : ℚ) / ((nItems : ℚ) - 1)))
      (NpVal.sub (NpVal.num 1) (NpVal.div totalItemVar totalVar)))

/-- Modelled from the spec: the standard Fleiss kappa formula of section 4.3
on an items-by-categories count matrix with a fixed number `n` of raters per
item.  The repository calls `statsmodels.stats.inter_rater.fleiss_kappa`,
whose source is not part of this repository: per-item agreement
`P_i = (sum_j x_ij^2 - n) / (n*(n-1))`, its mean over items, category
marginals `p_j = colsum_j / (N*n)`, expected agreement `P_e = sum_j p_j^2`,
and `kappa = (P_mean - P_e) / (1 - P_e)`. -/
def fleiss_kappa (n : ℚ) (table : List (List ℚ)) : ℚ :=
  let N : ℚ := table.length
  let nCat := (table.headD []).length
  let pRow := table.map (fun r => ((r.map (fun x => x ^ 2)).sum - n) / (n * (n - 1)))
  let pBar := pRow.sum / N
  let pCat := (List.range nCat).map (fun j => (colList table j).sum / (N * n))
  let pExp := (pCat.map (fun p => p ^ 2)).sum
  (pBar - pExp) / (1 - pExp)

/-- `scipy.stats.rankdata` (average tie method) applied within one column:
the rank of `x` is the count strictly below it plus (ties + 1)/2, ranks
starting at 1. -/
def rankAvg (col : List ℚ) (x : ℚ) : ℚ :=
  (col.countP (fun y => y < x) : ℚ) + ((col.countP (fun y => y = x) : ℚ) + 1) / 2

/-- `calculate_kendall_w.calculate_kendall_w_scipy` (lines 90-144): rank
each rater's column, sum ranks per sample row, form
`W = 12*S / (n^2*(m^3-m))` with `S` the sum of squared deviations of the
row-rank-sums from their mean, then the chi-square statistic `n*(m-1)*W`
and the upper-tail p-value `1 - chi2.cdf(chi_square, m-1)`.  The chi-square
distribution function is an external SciPy routine, passed in as `cdf`. -/
def calculate_kendall_w_scipy (cdf : ℚ → ℕ → ℚ) (M : List (List ℚ)) : ℚ × ℚ × ℚ :=
  let m := M.length
  let n := (M.headD []).length
  let ranked := M.map (fun r => (List.range n).map (fun j => rankAvg (colList M j) (r.getD j 0)))
  let rankSums := ranked.map List.sum
  let meanRS := rankSums.sum / m
  let S := (rankSums.map (fun x => (x - meanRS) ^ 2)).sum
  let W := 12 * S / ((n : ℚ) ^ 2 * ((m : ℚ) ^ 3 - (m : ℚ)))
  let chi := (n : ℚ) * ((m : ℚ) - 1) * W
  (W, chi, 1 - cdf chi (m - 1))

/-- Follows the spec's words (section 4.3, Kendall's W): rank per rater
column, per-sample rank sums, `W = 12*S/(n^2*(m^3-m))`, chi-square
`n*(m-1)*W` at `m-1` degrees of freedom, upper-tail p-value. -/
def spec_kendall_w (cdf : ℚ → ℕ → ℚ) (M : List (List ℚ)) (n : ℕ) : ℚ × ℚ × ℚ :=
  let m := M.length
  let rankSums :=
    M.map (fun r => ((List.range n).map (fun j => rankAvg (colList M j) (r.getD j 0))).sum)
  let S := (rankSums.map (fun x => (x - rankSums.sum / m) ^ 2)).sum
  let W := 12 * S / ((n : ℚ) ^ 2 * ((m : ℚ) ^ 3 - (m : ℚ)))
  (W, (n : ℚ) * ((m : ℚ) - 1) * W, 1 - cdf ((n : ℚ) * ((m : ℚ) - 1) * W) (m - 1))

/- ### Theorems -/

/-- C1: a null `discrete_emotion` maps to `"neutral"` exactly when
`emotion_type` is `"neutral"`, to `"undefined"` for every other
`emotion_type`, and a present label is kept as-is, in both
`extract_emotion_labels` and `load_discrete_emotions`. -/
theorem extract_label_null_rule (et : Option String) (l : String)
    (hne : et ≠ some "neutral") :
    extract_label none (some "neutral") = "neutral" ∧
    extract_label none et = "undefined" ∧
    extract_label (some l) et = l ∧
    pie_label none (some "neutral") = "neutral" ∧
    pie_label none et = "undefined" ∧
    pie_label (some l) et = l := by
  refine ⟨rfl, ?_, rfl, rfl, ?_, rfl⟩ <;> simp [extract_label, pie_label, hne]

/-- Witness for C1 at concrete inputs. -/
theorem extract_label_null_rule_witness :
    extract_label none (some "neutral") = "neutral" ∧
    extract_label none (some "non-neutral") = "undefined" ∧
    extract_label (some "happy") (some "non-neutral") = "happy" ∧
    pie_label none (some "neutral") = "neutral" ∧
    pie_label none (some "non-neutral") = "undefined" ∧
    pie_label (some "happy") (some "non-neutral") = "happy" :=
  extract_label_null_rule (some "non-neutral") "happy" (by decide)

/-- C9 counterexample: the code lowers the stripped text before comparing
with `"null"`, so the differently-cased text `"NULL"` is mapped to the
missing sentinel `"None"` instead of being kept as a category, contrary to
the claimed case-sensitive comparison. -/
theorem normalize_null_case_insensitive :
    normalize_discrete_emotion (some "NULL".toList) = "None".toList ∧
    "None".toList ≠ "NULL".toList := by decide

/-- C9 amended: extraction strips surrounding whitespace; a stripped value
that is empty or whose case-insensitive lowering equals `"null"` becomes the
missing sentinel `"None"`; any other text is kept in stripped form. -/
theorem normalize_discrete_emotion_spec (s : List Char) :
    normalize_discrete_emotion none = "None".toList ∧
    (pyStrip s = [] → normalize_discrete_emotion (some s) = "None".toList) ∧
    (pyLower (pyStrip s) = "null".toList →
      normalize_discrete_emotion (some s) = "None".toList) ∧
    (pyStrip s ≠ [] → pyLower (pyStrip s) ≠ "null".toList →
      normalize_discrete_emotion (some s) = pyStrip s) := by
  refine ⟨rfl, fun h => ?_, fun h => ?_, fun h1 h2 => ?_⟩
  · simp [normalize_discrete_emotion, h]
  · simp [normalize_discrete_emotion, h]
  · have h2c : pyLower (pyStrip s) ≠ ['n', 'u', 'l', 'l'] := by simpa using h2
    simp [normalize_discrete_emotion, h1, h2c]

/-- Witness for C9 amended at concrete inputs. -/
theorem normalize_discrete_emotion_spec_witness :
    normalize_discrete_emotion (some "  ".toList) = "None".toList ∧
    normalize_discrete_emotion (some " Null ".toList) = "None".toList ∧
    normalize_discrete_emotion (some " joy ".toList) = "joy".toList :=
  ⟨(normalize_discrete_emotion_spec "  ".toList).2.1 (by decide),
   (normalize_discrete_emotion_spec " Null ".toList).2.2.1 (by decide),
   (normalize_discrete_emotion_spec " joy ".toList).2.2.2 (by decide) (by decide)⟩

/-- C2 counterexample: a record whose `v_value` field is present with a JSON
`null` yields `null` in the rating matrix cell, not the claimed sentinel
`0` — `item.get("v_value", 0)` only substitutes `0` for an absent key. -/
theorem va_cell_null_not_zero :
    va_cell [("v_value", JVal.jnull)] "v_value" = JVal.jnull ∧
    JVal.jnull ≠ JVal.jnum 0 := by decide

/-- C2 amended: in `extract_va_values` the sentinel `0` is placed exactly
when the numeric field is absent from the record; a present value (a number
or a `null`) is placed unchanged.  In `calculate_fleiss_kappa.main` no `0`
sentinel exists at all: both an absent and a `null` field give `None`. -/
theorem va_cell_missing_rule (r : JRecord) (field : String) :
    (dictFind r field = none → va_cell r field = JVal.jnum 0) ∧
    (∀ v, dictFind r field = some v → va_cell r field = v) ∧
    (dictFind r field = none → fleiss_get r field = none) ∧
    (dictFind r field = some JVal.jnull → fleiss_get r field = none) := by
  unfold dictFind va_cell fleiss_get dictGetD
  cases h : r.find? (fun p => p.1 = field) with
  | none => simp
  | some p =>
    refine ⟨by simp, fun v hv => ?_, by simp, fun hn => ?_⟩
    · simp at hv
      simp [hv]
    · simp at hn
      simp [hn]

/-- Witness for C2 amended at concrete records. -/
theorem va_cell_missing_rule_witness :
    va_cell [("a_value", JVal.jnum 1)] "v_value" = JVal.jnum 0 ∧
    va_cell [("v_value", JVal.jnum 7)] "v_value" = JVal.jnum 7 ∧
    fleiss_get [("v_value", JVal.jnull)] "v_value" = none :=
  ⟨(va_cell_missing_rule [("a_value", JVal.jnum 1)] "v_value").1 (by decide),
   (va_cell_missing_rule [("v_value", JVal.jnum 7)] "v_value").2.1
     (JVal.jnum 7) (by decide),
   (va_cell_missing_rule [("v_value", JVal.jnull)] "v_value").2.2.2 (by decide)⟩

/-- C7: evaluation of the common-sample loop at a failing input.  On the
spec's own example the loop returns the intersection `{"x"}`, but on three
pairwise disjoint keysets the intermediate intersection becomes empty and
the emptiness test re-seeds the accumulator with the next annotator's keys,
so the loop returns `{"z"}` while the intersection is empty. -/
theorem common_samples_fold_not_intersection :
    common_samples_fold [{"x", "y"}, {"x"}, {"x", "y"}] = {"x"} ∧
    common_samples_fold [{"x"}, {"y"}, {"z"}] = {"z"} ∧
    samples_intersection [{"x"}, {"y"}, {"z"}] = ∅ ∧
    ({"z"} : Finset String) ≠ ∅ := by decide

/-- C3: the rating matrix produced by `extract_va_values` depends on the
enumeration order of the common-sample set: two enumerations of the same
two-element set produce different matrices (rows swapped), so no property of
the input datasets alone determines the row order. -/
theorem build_matrix_order_dependent :
    (["a", "b"] : List String).Perm ["b", "a"] ∧
    build_matrix ["a", "b"]
        [[("a", [("v_value", JVal.jnum 1)]), ("b", [("v_value", JVal.jnum 2)])]] ≠
      build_matrix ["b", "a"]
        [[("a", [("v_value", JVal.jnum 1)]), ("b", [("v_value", JVal.jnum 2)])]] := by
  decide

/-- C6: evaluation at a failing input.  One sample rated `"happy"` by all
three raters: the code reports 300% for `"happy"` (it adds the rater count
once per occurrence inside the per-occurrence loop), while the fraction of
occurrences lying in unanimous samples is 100%. -/
theorem agreement_per_category_over_100 :
    calculate_agreement_per_category [["happy", "happy", "happy"]] "happy" = 300 ∧
    spec_agreement_per_category [["happy", "happy", "happy"]] "happy" = 100 ∧
    (100 : ℚ) < 300 := by
  have hc : category_counts [["happy", "happy", "happy"]] "happy" = 3 := by decide
  have hr : category_agreement_raw [["happy", "happy", "happy"]] "happy" = 9 := by decide
  have hs : spec_unanimous_occurrences [["happy", "happy", "happy"]] "happy" = 3 := by
    decide
  refine ⟨?_, ?_, by norm_num⟩
  · unfold calculate_agreement_per_category
    rw [hc, hr]
    norm_num
  · unfold spec_agreement_per_category
    rw [hc, hs]
    norm_num

/-- Helper: a three-element multiset insertion has one distinct element
exactly when all three values coincide. -/
lemma triple_card_one_iff (a b c : ℚ) :
    ({a, b, c} : Finset ℚ).card = 1 ↔ (b = a ∧ c = a) := by
  constructor
  · intro h
    obtain ⟨x, hx⟩ := Finset.card_eq_one.mp h
    have ha : a ∈ ({a, b, c} : Finset ℚ) := by simp
    have hb : b ∈ ({a, b, c} : Finset ℚ) := by simp
    have hc : c ∈ ({a, b, c} : Finset ℚ) := by simp
    rw [hx] at ha hb hc
    simp at ha hb hc
    exact ⟨hb.trans ha.symm, hc.trans ha.symm⟩
  · rintro ⟨hb, hc⟩
    subst hb
    subst hc
    simp

/-- C10: for real-valued triples, the strict-range criterion of
`find_inconsistent_data` holds exactly when the one-distinct-value criterion
of `count_consistent_data` fails, so the two scripts classify every aligned
sample complementarily. -/
theorem inconsistent_iff_not_consistent (v1 v2 v3 : ℚ) :
    find_inconsistent_v v1 v2 v3 ↔ ¬ count_consistent_v v1 v2 v3 := by
  unfold find_inconsistent_v count_consistent_v
  rw [gt_iff_lt, sub_pos, triple_card_one_iff]
  constructor
  · rintro h ⟨hb, hc⟩
    subst hb
    subst hc
    simp at h
  · intro h
    by_contra hno
    push_neg at hno
    apply h
    have l1 : min (min v1 v2) v3 ≤ min v1 v2 := min_le_left _ _
    have l2 : min (min v1 v2) v3 ≤ v3 := min_le_right _ _
    have l3 : min v1 v2 ≤ v1 := min_le_left _ _
    have l4 : min v1 v2 ≤ v2 := min_le_right _ _
    have u1 : max v1 v2 ≤ max (max v1 v2) v3 := le_max_left _ _
    have u2 : v3 ≤ max (max v1 v2) v3 := le_max_right _ _
    have u3 : v1 ≤ max v1 v2 := le_max_left _ _
    have u4 : v2 ≤ max v1 v2 := le_max_right _ _
    constructor <;> linarith

/-- C5: for every samples-by-raters matrix with at least 2 samples (each of
its `m` rows holding one rating per each of the `n` raters), the Kendall W
computation returns exactly the spec's triple: `W = 12*S/(n^2*(m^3-m))`
over column ranks, the chi-square statistic `n*(m-1)*W`, and the upper-tail
chi-square p-value at `m-1` degrees of freedom. -/
theorem kendall_w_matches_spec (cdf : ℚ → ℕ → ℚ) (M : List (List ℚ)) (n : ℕ)
    (hn : (M.headD []).length = n) (hm : 2 ≤ M.length) :
    calculate_kendall_w_scipy cdf M = spec_kendall_w cdf M n := by
  subst hn
  unfold calculate_kendall_w_scipy spec_kendall_w
  simp only [List.map_map]
  rfl

/-- Witness for C5 at a concrete 2-sample, 2-rater matrix. -/
theorem kendall_w_matches_spec_witness :
    calculate_kendall_w_scipy (fun _ _ => 0) [[(1 : ℚ), 2], [2, 1]] =
      spec_kendall_w (fun _ _ => 0) [[(1 : ℚ), 2], [2, 1]] 2 :=
  kendall_w_matches_spec (fun _ _ => 0) [[(1 : ℚ), 2], [2, 1]] 2 rfl (by norm_num)

/-- Helper: a zero sum of squared deviations forces every entry to equal
the reference value. -/
lemma sum_sq_dev_eq_zero {μ : ℚ} :
    ∀ {l : List ℚ}, (l.map (fun x => (x - μ) ^ 2)).sum = 0 → ∀ x ∈ l, x = μ := by
  intro l
  induction l with
  | nil => intro _ x hx; simp at hx
  | cons a t ih =>
    intro h x hx
    rw [List.map_cons, List.sum_cons] at h
    have hrest : 0 ≤ (t.map (fun x => (x - μ) ^ 2)).sum := by
      apply List.sum_nonneg
      intro y hy
      obtain ⟨z, _, rfl⟩ := List.mem_map.mp hy
      positivity
    have h1 : (a - μ) ^ 2 = 0 := by nlinarith [sq_nonneg (a - μ)]
    have h2 : (t.map (fun x => (x - μ) ^ 2)).sum = 0 := by nlinarith [sq_nonneg (a - μ)]
    rcases List.mem_cons.mp hx with rfl | hxt
    · have h3 : x - μ = 0 := pow_eq_zero_iff two_ne_zero |>.mp h1
      linarith
    · exact ih h2 x hxt

/-- Helper: a list of copies of one value sums to length times the value. -/
lemma list_sum_of_const {c : ℚ} :
    ∀ {l : List ℚ}, (∀ x ∈ l, x = c) → l.sum = l.length * c := by
  intro l
  induction l with
  | nil => simp
  | cons a t ih =>
    intro h
    have ha : a = c := h a (by simp)
    have ht : ∀ x ∈ t, x = c := fun x hx => h x (by simp [hx])
    rw [List.sum_cons, ih ht, List.length_cons, ha]
    push_cast
    ring

/-- Helper: the sample variance of a constant vector of length at least two
is the finite value 0. -/
lemma npVar_const {c : ℚ} {l : List ℚ} (h2 : 2 ≤ l.length) (hc : ∀ x ∈ l, x = c) :
    npVar l = NpVal.num 0 := by
  have hne : l.length ≠ 0 := by omega
  have hcast : (l.length : ℚ) ≠ 0 := Nat.cast_ne_zero.mpr hne
  have hmean : l.sum / l.length = c := by
    rw [list_sum_of_const hc, mul_comm, mul_div_assoc, div_self hcast, mul_one]
  unfold npVar
  rw [if_neg hne]
  have hmap : (l.map (fun x => (x - l.sum / l.length) ^ 2)).sum = 0 := by
    apply List.sum_eq_zero
    intro y hy
    obtain ⟨z, hz, rfl⟩ := List.mem_map.mp hy
    rw [hmean, hc z hz]
    ring
  rw [hmap]
  have hb : ((l.length : ℚ) - 1) ≠ 0 := by
    have : (2 : ℚ) ≤ l.length := by exact_mod_cast h2
    linarith
  simp [NpVal.div, hb]

/-- Helper: a finite-zero sample variance can only arise from a vector of
length at least two in which every entry equals the mean. -/
lemma npVar_eq_zero_inv {l : List ℚ} (h : npVar l = NpVal.num 0) :
    2 ≤ l.length ∧ ∀ x ∈ l, x = l.sum / l.length := by
  unfold npVar at h
  by_cases hl : l.length = 0
  · rw [if_pos hl] at h
    exact absurd h (by simp)
  · rw [if_neg hl] at h
    by_cases hb : ((l.length : ℚ) - 1) = 0
    · exfalso
      by_cases ha : (l.map (fun x => (x - l.sum / l.length) ^ 2)).sum = 0
      · simp [NpVal.div, hb, ha] at h
      · rcases lt_trichotomy 0 ((l.map (fun x => (x - l.sum / l.length) ^ 2)).sum)
          with hpos | hzero | hneg
        · simp [NpVal.div, hb, ha, hpos] at h
        · exact ha hzero.symm
        · have hnp : ¬ (0 < (l.map (fun x => (x - l.sum / l.length) ^ 2)).sum) :=
            not_lt.mpr hneg.le
          simp [NpVal.div, hb, ha, hnp] at h
    · have ha : (l.map (fun x => (x - l.sum / l.length) ^ 2)).sum / ((l.length : ℚ) - 1) = 0 := by
        simpa [NpVal.div, hb] using h
      have ha0 : (l.map (fun x => (x - l.sum / l.length) ^ 2)).sum = 0 := by
        rcases div_eq_zero_iff.mp ha with h0 | h0
        · exact h0
        · exact absurd h0 hb
      refine ⟨?_, sum_sq_dev_eq_zero ha0⟩
      have hb1 : l.length ≠ 1 := by
        intro h1
        apply hb
        rw [h1]
        norm_num
      omega

/-- Helper: the numpy fold-sum of a vector of finite zeros, from a finite
seed, keeps the seed. -/
lemma foldl_add_num (l : List NpVal) (a : ℚ) (h : ∀ x ∈ l, x = NpVal.num 0) :
    l.foldl NpVal.add (NpVal.num a) = NpVal.num a := by
  induction l generalizing a with
  | nil => rfl
  | cons x t ih =>
    have hx : x = NpVal.num 0 := h x (by simp)
    rw [List.foldl_cons, hx]
    have hstep : NpVal.add (NpVal.num a) (NpVal.num 0) = NpVal.num a := by
      simp [NpVal.add]
    rw [hstep]
    exact ih a (fun y hy => h y (by simp [hy]))

/-- Helper: `np.sum` of finite zeros is the finite zero. -/
lemma npSum_zeros {l : List NpVal} (h : ∀ x ∈ l, x = NpVal.num 0) :
    npSum l = NpVal.num 0 :=
  foldl_add_num l 0 h

/-- C4 counterexample: the 2-sample, 1-rater matrix `[[1],[1]]` has every
rater (the single one) giving identical scores for every sample and a total
row-sum variance of exactly 0, yet the computation raises: the Python
scalar expression `n_items / (n_items - 1)` divides by zero when the matrix
has one column, so no NaN is signalled. -/
theorem cronbach_single_rater_raises :
    (∀ r ∈ [[(1 : ℚ)], [1]], ∀ x ∈ r, ∀ y ∈ r, x = y) ∧
    npVar ([[(1 : ℚ)], [1]].map List.sum) = NpVal.num 0 ∧
    calculate_cronbachs_alpha_manual [[(1 : ℚ)], [1]] = Except.error () := by
  refine ⟨?_, ?_, rfl⟩
  · intro r hr x hx y hy
    fin_cases hr <;> (fin_cases hx <;> fin_cases hy <;> rfl)
  · have hmap : ([[(1 : ℚ)], [1]].map List.sum) = [1, 1] := by norm_num
    rw [hmap]
    refine npVar_const (c := 1) (by norm_num) ?_
    intro x hx
    simp at hx
    exact hx

/-- C4 amended: on every rating matrix with at least two rater columns in
which all raters give identical scores for every sample and the total
variance of the row sums is 0, the Cronbach alpha computation does not
raise and signals NaN. -/
theorem cronbach_zero_variance_nan (M : List (List ℚ))
    (hk : 2 ≤ (M.headD []).length)
    (hlen : ∀ r ∈ M, r.length = (M.headD []).length)
    (hconst : ∀ r ∈ M, ∀ x ∈ r, ∀ y ∈ r, x = y)
    (hvar : npVar (M.map List.sum) = NpVal.num 0) :
    calculate_cronbachs_alpha_manual M = Except.ok NpVal.nan := by
  set k := (M.headD []).length with hkdef
  obtain ⟨hm2', hall⟩ := npVar_eq_zero_inv hvar
  have hm2 : 2 ≤ M.length := by simpa using hm2'
  have hMne : M ≠ [] := by
    intro h0
    rw [h0] at hm2
    simp at hm2
  obtain ⟨r0, t0, hM0⟩ := List.exists_cons_of_ne_nil hMne
  have hr0mem : r0 ∈ M := by rw [hM0]; simp
  set c := r0.headD 0 with hcdef
  set μ := (M.map List.sum).sum / (M.map List.sum).length with hμdef
  have hrowsum : ∀ r ∈ M, r.sum = μ := by
    intro r hr
    exact hall _ (List.mem_map.mpr ⟨r, hr, rfl⟩)
  have hrowhead : ∀ r ∈ M, ∀ x ∈ r, x = r.headD 0 := by
    intro r hr x hx
    have hrne : r ≠ [] := by
      intro h0
      have hl := hlen r hr
      rw [h0] at hl
      simp at hl
      omega
    obtain ⟨a, t, rfl⟩ := List.exists_cons_of_ne_nil hrne
    simpa using hconst _ hr x hx a (by simp)
  have hsumrow : ∀ r ∈ M, r.sum = (k : ℚ) * r.headD 0 := by
    intro r hr
    have hs := list_sum_of_const (c := r.headD 0) (l := r) (hrowhead r hr)
    rw [hs, hlen r hr]
  have hheads : ∀ r ∈ M, r.headD 0 = c := by
    intro r hr
    have h1 : (k : ℚ) * r.headD 0 = μ := by rw [← hsumrow r hr]; exact hrowsum r hr
    have h2 : (k : ℚ) * c = μ := by rw [← hsumrow r0 hr0mem]; exact hrowsum r0 hr0mem
    have hkne : (k : ℚ) ≠ 0 := by
      have hkq : (2 : ℚ) ≤ k := by exact_mod_cast hk
      linarith
    exact mul_left_cancel₀ hkne (h1.trans h2.symm)
  have hcell : ∀ r ∈ M, ∀ x ∈ r, x = c := fun r hr x hx =>
    (hrowhead r hr x hx).trans (hheads r hr)
  have hcols : ∀ j < k, npVar (colList M j) = NpVal.num 0 := by
    intro j hj
    refine npVar_const (c := c) (by simpa [colList] using hm2) ?_
    intro y hy
    obtain ⟨r, hr, rfl⟩ := List.mem_map.mp hy
    have hjr : j < r.length := by rw [hlen r hr]; exact hj
    have hmem : r.getD j 0 ∈ r := by
      rw [List.getD_eq_getElem r 0 hjr]
      exact List.getElem_mem hjr
    exact hcell r hr _ hmem
  have hvars : ∀ v ∈ (List.range k).map (fun j => npVar (colList M j)), v = NpVal.num 0 := by
    intro v hv
    obtain ⟨j, hj, rfl⟩ := List.mem_map.mp hv
    exact hcols j (List.mem_range.mp hj)
  have hsumvars : npSum ((List.range k).map (fun j => npVar (colList M j))) = NpVal.num 0 :=
    npSum_zeros hvars
  have hk1 : k ≠ 1 := by omega
  simp only [calculate_cronbachs_alpha_manual, ← hkdef]
  rw [if_neg hk1, hsumvars, hvar]
  rfl

/-- Witness for C4 amended at the constant 2-by-2 matrix of ones. -/
theorem cronbach_zero_variance_nan_witness :
    calculate_cronbachs_alpha_manual [[(1 : ℚ), 1], [1, 1]] = Except.ok NpVal.nan := by
  apply cronbach_zero_variance_nan
  · norm_num
  · intro r hr
    fin_cases hr <;> rfl
  · intro r hr x hx y hy
    fin_cases hr <;> (fin_cases hx <;> fin_cases hy <;> rfl)
  · have hmap : ([[(1 : ℚ), 1], [1, 1]].map List.sum) = [2, 2] := by norm_num
    rw [hmap]
    refine npVar_const (c := 2) (by norm_num) ?_
    intro x hx
    simp at hx
    exact hx

/-- Helper: the sample variance is invariant under permutation of the
vector. -/
lemma npVar_perm {l l' : List ℚ} (h : l.Perm l') : npVar l = npVar l' := by
  have hlen := h.length_eq
  have hsum := h.sum_eq
  unfold npVar
  rw [hlen, hsum]
  rw [(h.map (fun x => (x - l'.sum / (l'.length : ℚ)) ^ 2)).sum_eq]

/-- C8: Fleiss kappa and Cronbach alpha are invariant under any permutation
of the rating matrix rows: every ingredient of both formulas (row count,
column count, column sums, per-row summaries and their totals, sample
variances) only sees each row once, in no particular order. -/
theorem metrics_row_permutation_invariant (n : ℚ) (k : ℕ) (M M' : List (List ℚ))
    (hlen : ∀ r ∈ M, r.length = k) (hperm : M.Perm M') :
    fleiss_kappa n M = fleiss_kappa n M' ∧
    calculate_cronbachs_alpha_manual M = calculate_cronbachs_alpha_manual M' := by
  by_cases hM : M = []
  · subst hM
    have hM' : M' = [] := hperm.symm.eq_nil
    subst hM'
    exact ⟨rfl, rfl⟩
  · have hM' : M' ≠ [] := by
      intro h0
      subst h0
      exact hM hperm.eq_nil
    have hmemM : M.headD [] ∈ M := by
      obtain ⟨a, t, rfl⟩ := List.exists_cons_of_ne_nil hM
      simp
    have hmemM' : M'.headD [] ∈ M' := by
      obtain ⟨a, t, rfl⟩ := List.exists_cons_of_ne_nil hM'
      simp
    have hlen' : ∀ r ∈ M', r.length = k := fun r hr => hlen r (hperm.mem_iff.mpr hr)
    have hheadM : (M.headD []).length = k := hlen _ hmemM
    have hheadM' : (M'.headD []).length = k := hlen' _ hmemM'
    have hN : M.length = M'.length := hperm.length_eq
    have hcolsum : ∀ j : ℕ, (colList M j).sum = (colList M' j).sum := by
      intro j
      unfold colList
      exact (hperm.map (fun r => r.getD j 0)).sum_eq
    have hcolvar : ∀ j : ℕ, npVar (colList M j) = npVar (colList M' j) := by
      intro j
      unfold colList
      exact npVar_perm (hperm.map (fun r => r.getD j 0))
    constructor
    · simp only [fleiss_kappa]
      rw [hheadM, hheadM', hN]
      have h1 : (List.map (fun r => ((List.map (fun x => x ^ 2) r).sum - n) / (n * (n - 1))) M).sum
          = (List.map (fun r => ((List.map (fun x => x ^ 2) r).sum - n) / (n * (n - 1))) M').sum :=
        List.Perm.sum_eq (hperm.map _)
      have hcats : List.map (fun j => (colList M j).sum / ((M'.length : ℚ) * n)) (List.range k)
          = List.map (fun j => (colList M' j).sum / ((M'.length : ℚ) * n)) (List.range k) := by
        apply List.map_congr_left
        intro j _
        rw [hcolsum j]
      rw [h1, hcats]
    · simp only [calculate_cronbachs_alpha_manual]
      rw [hheadM, hheadM']
      have hvars : (List.range k).map (fun j => npVar (colList M j)) =
          (List.range k).map (fun j => npVar (colList M' j)) := by
        apply List.map_congr_left
        intro j _
        exact hcolvar j
      rw [hvars, npVar_perm (hperm.map List.sum)]

/-- Witness for C8 at a concrete 2-by-2 matrix and its row swap. -/
theorem metrics_row_permutation_invariant_witness :
    fleiss_kappa 3 [[(1 : ℚ), 0], [0, 1]] = fleiss_kappa 3 [[(0 : ℚ), 1], [1, 0]] ∧
    calculate_cronbachs_alpha_manual [[(1 : ℚ), 0], [0, 1]] =
      calculate_cronbachs_alpha_manual [[(0 : ℚ), 1], [1, 0]] :=
  metrics_row_permutation_invariant 3 2 [[(1 : ℚ), 0], [0, 1]] [[(0 : ℚ), 1], [1, 0]]
    (by intro r hr; fin_cases hr <;> rfl) (by decide)
